import Mathlib

/-!
Verification of the EITLanding rendering scripts.

The repository contains two JavaScript animation scripts that "laser-write"
a fixed text onto a canvas:

* version 1 (`src/unnamed/part_000`): a flat sampled point list revealed in
  serpentine scanline order, with a `revealCount` counter, a 14-second dwell
  and then a full reset;
* version 2 (`src/app.js`): one point list per letter, ordered by a greedy
  nearest-neighbour chain, traversed continuously by `advanceTip` with a
  bounded tail (`pushTail`) and a persistent ink buffer.

The shallow embedding below models coordinates as rationals, the reveal
counter as an integer (it only ever holds integral values in the source),
and every loop of the source as a structurally recursive function, using an
explicit fuel argument where the source uses a `while` loop; theorems below
show the fuel bounds are never exhausted.  `Math.hypot a b >= r` (with
`r >= 0`) is modelled by the exact rational comparison `r^2 <= a^2 + b^2`.
-/

namespace EIT

/-- A sampled glyph point, as produced by both samplers (`{x, y}`). -/
structure Point where
  x : ℚ
  y : ℚ
deriving DecidableEq, Repr

instance : Inhabited Point := ⟨⟨0, 0⟩⟩

/-- Squared Euclidean distance; the source compares squared distances in the
nearest-neighbour chain (`dx*dx + dy*dy`). -/
def dist2 (a b : Point) : ℚ := (a.x - b.x) ^ 2 + (a.y - b.y) ^ 2

/-- `lerp(a,b,t)` from `src/app.js`. -/
def lerpQ (a b t : ℚ) : ℚ := a + (b - a) * t

/-- Interpolated point `{x: lerp(a.x,b.x,t), y: lerp(a.y,b.y,t)}`. -/
def lerpP (a b : Point) (t : ℚ) : Point := ⟨lerpQ a.x b.x t, lerpQ a.y b.y t⟩

/-- `dist(a,b) >= r` of `src/app.js` (`Math.hypot`), modelled exactly for
`r ≥ 0` by comparing squares. -/
def distGe (a b : Point) (r : ℚ) : Prop := r ^ 2 ≤ dist2 a b

instance (a b : Point) (r : ℚ) : Decidable (distGe a b r) :=
  inferInstanceAs (Decidable (r ^ 2 ≤ dist2 a b))

/-! ### Version 2 configuration constants (`CONFIG` in `src/app.js`) -/

def pointsPerSecond : ℚ := 2000
def tailLength : ℕ := 60
def tailStepMin : ℚ := 7 / 5

/-! ### Tail maintenance (`pushTail` in `src/app.js`) -/

/-- `pushTail(p)`: if the tail is empty, push `p`; otherwise push `p` only
when it is at least `tailStepMin` away from the last stored entry, and drop
the oldest entry (`shift()`) once the capacity `tailLength` is exceeded. -/
def pushTail (tail : List Point) (p : Point) : List Point :=
  match tail.getLast? with
  | none => [p]
  | some lastp =>
    if distGe lastp p tailStepMin then
      let t := tail ++ [p]
      if tailLength < t.length then t.tail else t
    else tail

/-- The tail invariant: bounded capacity and minimum spacing between all
consecutive entries. -/
def TailInv (t : List Point) : Prop :=
  t.length ≤ tailLength ∧ List.Chain' (fun a b => distGe a b tailStepMin) t

theorem pushTail_inv {t : List Point} (p : Point) (h : TailInv t) :
    TailInv (pushTail t p) := by
  obtain ⟨hlen, hchain⟩ := h
  unfold pushTail
  cases hlast : t.getLast? with
  | none =>
    exact ⟨by simp [tailLength], by simp⟩
  | some lastp =>
    by_cases hd : distGe lastp p tailStepMin
    · simp only [hd, if_true]
      have hchain2 : List.Chain' (fun a b => distGe a b tailStepMin) (t ++ [p]) := by
        rw [List.chain'_append]
        refine ⟨hchain, List.chain'_singleton _, ?_⟩
        intro x hx y hy
        rw [hlast] at hx
        simp only [Option.mem_def, Option.some.injEq] at hx
        simp only [List.head?_cons, Option.mem_def, Option.some.injEq] at hy
        subst hx; subst hy; exact hd
      by_cases hl : tailLength < (t ++ [p]).length
      · simp only [hl, if_true]
        refine ⟨?_, hchain2.tail⟩
        have : (t ++ [p]).length = t.length + 1 := by simp
        have := List.length_tail (t ++ [p])
        omega
      · simp only [hl, if_false]
        refine ⟨?_, hchain2⟩
        omega
    · simp only [hd, if_false]
      exact ⟨hlen, hchain⟩

theorem foldl_pushTail_inv (ps : List Point) :
    ∀ t : List Point, TailInv t → TailInv (ps.foldl pushTail t) := by
  induction ps with
  | nil => intro t h; exact h
  | cons p ps ih =>
    intro t h
    exact ih (pushTail t p) (pushTail_inv p h)

/-- Claim C5: in version 2, after any sequence of `pushTail` calls (the tail
starts empty at startup and after every reset), the tail never exceeds the
configured capacity `CONFIG.tailLength`, and consecutive tail entries are
always at least `CONFIG.tailStepMin` apart (which in particular holds for
all entries but the final one, as the claim states). -/
theorem c5_tail_bounded_and_spaced (ps : List Point) :
    (ps.foldl pushTail []).length ≤ tailLength ∧
      List.Chain' (fun a b => distGe a b tailStepMin) (ps.foldl pushTail []) :=
  foldl_pushTail_inv ps [] ⟨by simp [tailLength], by simp⟩

/-! ### Path Orderer, version 2 (`buildLetters` in `src/app.js`, lines 160-196)

The source finds a start index (smallest `y`, ties broken by smallest `x`,
keeping the earliest such index) and then repeatedly scans the unused points
for the one at smallest squared distance from the current point, starting
the running best at `1e18` and updating on strict improvement (`d < bestD`),
so the earliest index attaining the minimum is chosen; if no point beats the
`1e18` sentinel the loop breaks (`best === -1`). -/

/-- Strict lexicographic order on `(y, x)` used to pick the chain start
(`pts[i].y < pts[start].y || (pts[i].y === pts[start].y && pts[i].x <
pts[start].x)`). -/
def ltYX (p q : Point) : Prop := p.y < q.y ∨ (p.y = q.y ∧ p.x < q.x)

instance (p q : Point) : Decidable (ltYX p q) :=
  inferInstanceAs (Decidable (_ ∨ _))

/-- Select the earliest element that is minimal for the strict comparison
`better`, returning it together with the rest of the list in order.  This is
the common shape of the start-selection loop of `buildLetters` and of the
spec-side closest-point selection. -/
def selectBy (better : Point → Point → Prop) [DecidableRel better] :
    List Point → Option (Point × List Point)
  | [] => none
  | p :: ps =>
    match selectBy better ps with
    | none => some (p, ps)
    | some (q, rest) => if better q p then some (q, p :: rest) else some (p, ps)

/-- The start-selection loop of `buildLetters` (lines 164-167). -/
def pickStart : List Point → Option (Point × List Point) := selectBy ltYX

/-- The inner argmin scan of `buildLetters` (lines 175-188): running best
distance starts at the `1e18` sentinel and is updated on strict improvement;
`none` models `best === -1`. -/
def pickMin (c : Point) (bd : ℚ) : List Point → Option (Point × List Point)
  | [] => none
  | p :: ps =>
    if dist2 c p < bd then
      match pickMin c (dist2 c p) ps with
      | none => some (p, ps)
      | some (q, rest) => some (q, p :: rest)
    else
      match pickMin c bd ps with
      | none => none
      | some (q, rest) => some (q, p :: rest)

/-- The nearest-neighbour chaining loop of `buildLetters` (lines 174-192),
with an explicit fuel that the caller sets to the number of remaining points
(the source loop runs `pts.length - 1` times, breaking early when
`best === -1`). -/
def nnChainF : ℕ → Point → List Point → List Point
  | 0, _, _ => []
  | f + 1, c, rem =>
    match pickMin c (10 ^ 18) rem with
    | none => []
    | some (q, rest) => q :: nnChainF f q rest

/-- Per-letter ordering of `buildLetters`: nearest-neighbour chaining from
the top-left-most point when `pts.length > 2`, otherwise the raster
sampling order is kept unchanged (lines 162 and 194-196). -/
def orderPoints (pts : List Point) : List Point :=
  if 2 < pts.length then
    match pickStart pts with
    | none => []
    | some (s, rest) => s :: nnChainF rest.length s rest
  else pts

/-- Modelled from the spec (refinement reference for C2): pick the unvisited
point closest in squared Euclidean distance to the current point, earliest
index on ties, with no sentinel threshold. -/
def specPick (c : Point) : List Point → Option (Point × List Point) :=
  selectBy (fun a b => dist2 c a < dist2 c b)

/-- Modelled from the spec (refinement reference for C2): repeatedly pick
the closest unvisited point until all points are consumed. -/
def specChainF : ℕ → Point → List Point → List Point
  | 0, _, _ => []
  | f + 1, c, rem =>
    match specPick c rem with
    | none => []
    | some (q, rest) => q :: specChainF f q rest

/-- Modelled from the spec (refinement reference for C2): start at the point
with smallest `y` (tie-break smallest `x`) and follow the greedy
nearest-neighbour chain through all points. -/
def specGreedy (pts : List Point) : List Point :=
  match pickStart pts with
  | none => []
  | some (s, rest) => s :: specChainF rest.length s rest

theorem selectBy_eq_none {better : Point → Point → Prop} [DecidableRel better] :
    ∀ {l : List Point}, selectBy better l = none → l = []
  | [], _ => rfl
  | p :: ps, h => by
    unfold selectBy at h
    cases hps : selectBy better ps with
    | none => rw [hps] at h; exact Option.noConfusion h
    | some qr =>
      obtain ⟨q, rest⟩ := qr
      rw [hps] at h
      dsimp only at h
      split at h <;> exact Option.noConfusion h

theorem selectBy_perm {better : Point → Point → Prop} [DecidableRel better] :
    ∀ {l : List Point} {q : Point} {rest : List Point},
      selectBy better l = some (q, rest) → (q :: rest).Perm l
  | [], _, _, h => Option.noConfusion h
  | p :: ps, q, rest, h => by
    unfold selectBy at h
    cases hps : selectBy better ps with
    | none =>
      rw [hps] at h
      dsimp only at h
      obtain ⟨rfl, rfl⟩ : p = q ∧ ps = rest := by simpa using h
      exact List.Perm.refl _
    | some qr =>
      obtain ⟨q', rest'⟩ := qr
      rw [hps] at h
      dsimp only at h
      have ih := selectBy_perm hps
      split at h
      · obtain ⟨rfl, rfl⟩ : q' = q ∧ p :: rest' = rest := by simpa using h
        exact (List.Perm.swap p q' rest').trans (List.Perm.cons p ih)
      · obtain ⟨rfl, rfl⟩ : p = q ∧ ps = rest := by simpa using h
        exact List.Perm.refl _

theorem selectBy_mem {better : Point → Point → Prop} [DecidableRel better]
    {l : List Point} {q : Point} {rest : List Point}
    (h : selectBy better l = some (q, rest)) : q ∈ l :=
  (selectBy_perm h).mem_iff.mp (List.mem_cons_self _ _)

theorem selectBy_rest_subset {better : Point → Point → Prop} [DecidableRel better]
    {l : List Point} {q : Point} {rest : List Point}
    (h : selectBy better l = some (q, rest)) : ∀ x ∈ rest, x ∈ l :=
  fun _x hx => (selectBy_perm h).mem_iff.mp (List.mem_cons_of_mem _ hx)

theorem selectBy_rest_length {better : Point → Point → Prop} [DecidableRel better]
    {l : List Point} {q : Point} {rest : List Point}
    (h : selectBy better l = some (q, rest)) : rest.length + 1 = l.length := by
  have := (selectBy_perm h).length_eq
  simpa using this

/-- The sentinel-thresholded argmin of the source equals the spec-side argmin
filtered by the threshold. -/
theorem pickMin_eq_specPick (c : Point) :
    ∀ (l : List Point) (bd : ℚ),
      pickMin c bd l =
        match specPick c l with
        | none => none
        | some (q, rest) => if dist2 c q < bd then some (q, rest) else none
  | [], bd => rfl
  | p :: ps, bd => by
    have ih := pickMin_eq_specPick c ps
    have hspec : specPick c (p :: ps) =
        match specPick c ps with
        | none => some (p, ps)
        | some (q, rest) =>
          if dist2 c q < dist2 c p then some (q, p :: rest) else some (p, ps) := rfl
    cases hps : specPick c ps with
    | none =>
      have hnil : ps = [] := selectBy_eq_none hps
      subst hnil
      by_cases hp : dist2 c p < bd <;>
        simp [pickMin, specPick, selectBy, hp]
    | some qr =>
      obtain ⟨q, rest⟩ := qr
      have ihq := ih (dist2 c p)
      have ihbd := ih bd
      rw [hps] at ihq ihbd
      dsimp only at ihq ihbd
      rw [hspec, hps]
      dsimp only
      by_cases hp : dist2 c p < bd
      · by_cases hq : dist2 c q < dist2 c p
        · rw [if_pos hq] at ihq
          rw [if_pos hq]
          dsimp only
          rw [if_pos (lt_trans hq hp)]
          simp only [pickMin, if_pos hp, ihq]
        · rw [if_neg hq] at ihq
          rw [if_neg hq]
          dsimp only
          rw [if_pos hp]
          simp only [pickMin, if_pos hp, ihq]
      · have hbd_le : bd ≤ dist2 c p := not_lt.mp hp
        by_cases h2 : dist2 c q < bd
        · have hq : dist2 c q < dist2 c p := lt_of_lt_of_le h2 hbd_le
          rw [if_pos h2] at ihbd
          rw [if_pos hq]
          dsimp only
          rw [if_pos h2]
          simp only [pickMin, if_neg hp, ihbd]
        · rw [if_neg h2] at ihbd
          by_cases hq : dist2 c q < dist2 c p
          · rw [if_pos hq]
            dsimp only
            rw [if_neg h2]
            simp only [pickMin, if_neg hp, ihbd]
          · rw [if_neg hq]
            dsimp only
            rw [if_neg hp]
            simp only [pickMin, if_neg hp, ihbd]

theorem pickMin_some_iff {c : Point} {bd : ℚ} {l : List Point}
    {q : Point} {rest : List Point} :
    pickMin c bd l = some (q, rest) ↔
      specPick c l = some (q, rest) ∧ dist2 c q < bd := by
  rw [pickMin_eq_specPick c l bd]
  cases hps : specPick c l with
  | none => simp
  | some qr =>
    obtain ⟨q', rest'⟩ := qr
    dsimp only
    by_cases hd : dist2 c q' < bd
    · rw [if_pos hd]
      constructor
      · intro h
        obtain ⟨rfl, rfl⟩ : q' = q ∧ rest' = rest := by simpa using h
        exact ⟨rfl, hd⟩
      · intro ⟨h, _⟩
        exact h
    · rw [if_neg hd]
      constructor
      · intro h; exact Option.noConfusion h
      · intro ⟨h, hlt⟩
        obtain ⟨rfl, rfl⟩ : q' = q ∧ rest' = rest := by simpa using h
        exact absurd hlt hd

/-! Coordinate bounds.  Sampled points have coordinates bounded by the
viewport and glyph-box sizes (at most a few thousand pixels); `10^8` is a
generous over-approximation under which the `1e18` sentinel of the argmin
scan can never mask a genuine point. -/

/-- A point whose coordinates are bounded by `10^8` in absolute value. -/
def InBox (p : Point) : Prop := |p.x| ≤ 10 ^ 8 ∧ |p.y| ≤ 10 ^ 8

instance (p : Point) : Decidable (InBox p) :=
  inferInstanceAs (Decidable (_ ∧ _))

/-- All points of a list are coordinate-bounded. -/
def Bounded (pts : List Point) : Prop := ∀ p ∈ pts, InBox p

instance (pts : List Point) : Decidable (Bounded pts) :=
  List.decidableBAll _ pts

theorem dist2_lt_sentinel {a b : Point} (ha : InBox a) (hb : InBox b) :
    dist2 a b < 10 ^ 18 := by
  obtain ⟨hax, hay⟩ := ha
  obtain ⟨hbx, hby⟩ := hb
  rw [abs_le] at hax hay hbx hby
  have hx : (a.x - b.x) ^ 2 ≤ (2 * 10 ^ 8) ^ 2 :=
    sq_le_sq' (by linarith [hax.1, hbx.2]) (by linarith [hax.2, hbx.1])
  have hy : (a.y - b.y) ^ 2 ≤ (2 * 10 ^ 8) ^ 2 :=
    sq_le_sq' (by linarith [hay.1, hby.2]) (by linarith [hay.2, hby.1])
  unfold dist2
  nlinarith [hx, hy]

theorem specChainF_perm :
    ∀ (n : ℕ) (c : Point) (rem : List Point), rem.length = n →
      (specChainF n c rem).Perm rem
  | 0, c, rem, h => by
    rw [List.length_eq_zero] at h
    subst h
    exact List.Perm.refl _
  | n + 1, c, rem, h => by
    cases hps : specPick c rem with
    | none =>
      have : rem = [] := selectBy_eq_none hps
      subst this
      simp at h
    | some qr =>
      obtain ⟨q, rest⟩ := qr
      have hperm : (q :: rest).Perm rem := selectBy_perm hps
      have hlen : rest.length = n := by
        have := selectBy_rest_length hps
        omega
      have ih := specChainF_perm n q rest hlen
      show (specChainF (n + 1) c rem).Perm rem
      unfold specChainF
      rw [hps]
      exact (List.Perm.cons q ih).trans hperm

theorem nnChainF_eq_specChainF :
    ∀ (n : ℕ) (c : Point) (rem : List Point), rem.length = n →
      InBox c → Bounded rem → nnChainF n c rem = specChainF n c rem
  | 0, _, _, _, _, _ => rfl
  | n + 1, c, rem, h, hc, hrem => by
    unfold nnChainF specChainF
    cases hps : specPick c rem with
    | none =>
      have : rem = [] := selectBy_eq_none hps
      subst this
      simp at h
    | some qr =>
      obtain ⟨q, rest⟩ := qr
      have hqmem : q ∈ rem := selectBy_mem hps
      have hq : InBox q := hrem q hqmem
      have hpm : pickMin c (10 ^ 18) rem = some (q, rest) :=
        pickMin_some_iff.mpr ⟨hps, dist2_lt_sentinel hc hq⟩
      rw [hpm]
      dsimp only
      have hlen : rest.length = n := by
        have := selectBy_rest_length hps
        omega
      have hrest : Bounded rest := fun x hx => hrem x (selectBy_rest_subset hps x hx)
      rw [nnChainF_eq_specChainF n q rest hlen hq hrest]

/-! ### Path Orderer, version 1 (`buildTextPoints` in `src/unnamed/part_000`,
lines 151-157): serpentine scanline sort with stride `CONFIG.sampleStep = 4`. -/

/-- Sample row of a point (`Math.floor(p.y/step)` with `step = 4`). -/
def rowOf (p : Point) : ℤ := ⌊p.y / 4⌋

/-- `comparator(p, q) <= 0` for the serpentine sort: ascending rows; within a
row, ascending `x` on even rows and descending `x` on odd rows. -/
def serpLe (p q : Point) : Prop :=
  rowOf p < rowOf q ∨
    (rowOf p = rowOf q ∧ if rowOf p % 2 = 0 then p.x ≤ q.x else q.x ≤ p.x)

instance (p q : Point) : Decidable (serpLe p q) :=
  inferInstanceAs (Decidable (_ ∨ _))

/-- The serpentine sort of the version-1 point list (`pts.sort(...)`). -/
def serpSort (pts : List Point) : List Point :=
  List.insertionSort serpLe pts

/-- Claim C1: the Path Orderer's output is a permutation of its input
sampled points: for every letter's point list in version 2 (whose sampled
coordinates are bounded, here by `10^8`), and for the flat point list in
version 1, every sampled point appears in the produced traversal order
exactly once — no duplicates, no drops. -/
theorem c1_orderer_permutation :
    (∀ pts : List Point, Bounded pts → (orderPoints pts).Perm pts) ∧
      (∀ pts : List Point, (serpSort pts).Perm pts) := by
  constructor
  · intro pts hb
    unfold orderPoints
    by_cases h3 : 2 < pts.length
    · rw [if_pos h3]
      cases hps : pickStart pts with
      | none =>
        have : pts = [] := selectBy_eq_none hps
        subst this
        simp at h3
      | some qr =>
        obtain ⟨s, rest⟩ := qr
        have hperm : (s :: rest).Perm pts := selectBy_perm hps
        have hs : InBox s := hb s (selectBy_mem hps)
        have hrest : Bounded rest := fun x hx => hb x (selectBy_rest_subset hps x hx)
        dsimp only
        rw [nnChainF_eq_specChainF rest.length s rest rfl hs hrest]
        exact (List.Perm.cons s (specChainF_perm rest.length s rest rfl)).trans hperm
    · rw [if_neg h3]
  · intro pts
    exact List.perm_insertionSort serpLe pts

/-- Witness for C1 at a concrete input. -/
theorem c1_orderer_permutation_witness :
    Bounded [(⟨0, 0⟩ : Point), ⟨3, 0⟩, ⟨1, 0⟩, ⟨2, 0⟩] ∧
      (orderPoints [(⟨0, 0⟩ : Point), ⟨3, 0⟩, ⟨1, 0⟩, ⟨2, 0⟩]).Perm
        [(⟨0, 0⟩ : Point), ⟨3, 0⟩, ⟨1, 0⟩, ⟨2, 0⟩] :=
  ⟨by norm_num [Bounded, InBox],
    c1_orderer_permutation.1 _ (by norm_num [Bounded, InBox])⟩

/-- Counterexample to C2 as stated: a two-point letter (the source only
chains letters with `pts.length > 2`) keeps its raster sampling order, which
is not the greedy nearest-neighbour chain starting at the smallest-`y`
point. -/
theorem c2_counterexample :
    orderPoints [(⟨0, 1⟩ : Point), ⟨0, 0⟩] ≠
      specGreedy [(⟨0, 1⟩ : Point), ⟨0, 0⟩] := by
  norm_num [orderPoints, specGreedy, pickStart, selectBy, ltYX, specPick,
    specChainF, dist2]

/-- Claim C2, amended: for every letter with more than 2 sampled points
(with the coordinate bounds the sampler guarantees), the produced order is
exactly the greedy nearest-neighbour chain that starts at the point with
smallest `y` (ties by smallest `x`) and repeatedly takes the closest
unvisited point; letters with 2 or fewer points keep their raster sampling
order unchanged. -/
theorem c2_nn_chain_amended (pts : List Point) (hb : Bounded pts) :
    (2 < pts.length → orderPoints pts = specGreedy pts) ∧
      (pts.length ≤ 2 → orderPoints pts = pts) := by
  constructor
  · intro h3
    unfold orderPoints specGreedy
    rw [if_pos h3]
    cases hps : pickStart pts with
    | none => rfl
    | some qr =>
      obtain ⟨s, rest⟩ := qr
      have hs : InBox s := hb s (selectBy_mem hps)
      have hrest : Bounded rest := fun x hx => hb x (selectBy_rest_subset hps x hx)
      dsimp only
      rw [nnChainF_eq_specChainF rest.length s rest rfl hs hrest]
  · intro h2
    unfold orderPoints
    rw [if_neg (by omega)]

/-- Witness for the amended C2 at a concrete three-point input. -/
theorem c2_nn_chain_amended_witness :
    Bounded [(⟨0, 0⟩ : Point), ⟨5, 0⟩, ⟨1, 0⟩] ∧ 2 < ([(⟨0, 0⟩ : Point), ⟨5, 0⟩, ⟨1, 0⟩] : List Point).length ∧
      orderPoints [(⟨0, 0⟩ : Point), ⟨5, 0⟩, ⟨1, 0⟩] =
        specGreedy [(⟨0, 0⟩ : Point), ⟨5, 0⟩, ⟨1, 0⟩] :=
  ⟨by norm_num [Bounded, InBox], by norm_num,
    (c2_nn_chain_amended _ (by norm_num [Bounded, InBox])).1 (by norm_num)⟩

/-! ### Version 1 frame step (`step` in `src/unnamed/part_000`)

Only the state the claims are about is modelled: the reveal counter, the
completion timestamp, the previous frame time and the ink (glow) buffer
contents, the last as the list of points stamped since the buffer was last
cleared.  The background particles, the sweep beam and all pure canvas
drawing do not feed back into this state.  `revealCount` is modelled as an
integer: it starts at 0 and is only ever changed by adding the floored
`revealRate * dt` (line 253), by `Math.min` with the integer point count
(line 254), or by the reset to 0 (line 338), so it always holds an integral
value in the source. -/

def revealRate : ℚ := 900

structure V1State where
  lastT : ℚ
  revealCount : ℤ
  completedAt : ℚ
  ink : List Point
deriving DecidableEq, Repr

/-- `dt = Math.min(0.033, (now - last) / 1000)` (line 194). -/
def dtV1 (now : ℚ) (s : V1State) : ℚ := min (33 / 1000) ((now - s.lastT) / 1000)

/-- The reveal update (lines 252-255): only when the point list is
non-empty, add `Math.floor(revealRate * dt)` and clamp to the list length. -/
def rcAfterReveal (pts : List Point) (now : ℚ) (s : V1State) : ℤ :=
  if pts.length ≠ 0 then
    min (pts.length : ℤ) (s.revealCount + ⌊revealRate * dtV1 now s⌋)
  else s.revealCount

/-- The batch of points stamped into the glow buffer this frame (lines
258-271): indices from `Math.max(0, revealCount - 2500)` up to
`revealCount - 1` of the ordered point list. -/
def batchV1 (pts : List Point) (rc1 : ℤ) : List Point :=
  (pts.take rc1.toNat).drop (max 0 (rc1 - 2500)).toNat

/-- `progress = revealCount / (textPoints.length || 1)` (line 293). -/
def progressV1 (pts : List Point) (rc1 : ℤ) : ℚ :=
  (rc1 : ℚ) / (if pts.length = 0 then 1 else (pts.length : ℚ))

/-- `if(!completedAt) completedAt = now` (line 329). -/
def completedAt1 (now : ℚ) (s : V1State) : ℚ :=
  if s.completedAt = 0 then now else s.completedAt

/-- The frame resets (lines 336-341) exactly when the reveal is complete and
more than 14 seconds have passed since `completedAt` was recorded. -/
def resetsV1 (pts : List Point) (now : ℚ) (s : V1State) : Prop :=
  1 ≤ progressV1 pts (rcAfterReveal pts now s) ∧
    14 < (now - completedAt1 now s) / 1000

instance (pts : List Point) (now : ℚ) (s : V1State) :
    Decidable (resetsV1 pts now s) :=
  inferInstanceAs (Decidable (_ ∧ _))

/-- One version-1 frame step (`step(now)`, lines 193-348): update `last`,
advance the reveal counter, stamp the recent batch into the glow buffer,
then either record completion and possibly reset the whole cycle (counter
to 0, `completedAt` to 0, glow buffer cleared), or clear `completedAt`
while still revealing. -/
def stepV1 (pts : List Point) (now : ℚ) (s : V1State) : V1State :=
  let rc1 := rcAfterReveal pts now s
  let ink1 := s.ink ++ batchV1 pts rc1
  if 1 ≤ progressV1 pts rc1 then
    if 14 < (now - completedAt1 now s) / 1000 then
      { lastT := now, revealCount := 0, completedAt := 0, ink := [] }
    else
      { lastT := now, revealCount := rc1, completedAt := completedAt1 now s, ink := ink1 }
  else
    { lastT := now, revealCount := rc1, completedAt := 0, ink := ink1 }

/-- A run of consecutive frame steps at the given timestamps. -/
def runV1 (pts : List Point) (nows : List ℚ) (s : V1State) : V1State :=
  nows.foldl (fun st n => stepV1 pts n st) s

/-- No step of the run triggers the 14-second reset. -/
def NoResetRun (pts : List Point) : List ℚ → V1State → Prop
  | [], _ => True
  | n :: ns, s => ¬ resetsV1 pts n s ∧ NoResetRun pts ns (stepV1 pts n s)

instance NoResetRun.dec (pts : List Point) :
    ∀ (nows : List ℚ) (s : V1State), Decidable (NoResetRun pts nows s)
  | [], _ => isTrue trivial
  | n :: ns, s =>
    have : Decidable (NoResetRun pts ns (stepV1 pts n s)) := NoResetRun.dec pts ns _
    inferInstanceAs (Decidable (_ ∧ _))

theorem dtV1_nonneg {now : ℚ} {s : V1State} (h : s.lastT ≤ now) :
    0 ≤ dtV1 now s := by
  unfold dtV1
  have h1 : (0 : ℚ) ≤ (now - s.lastT) / 1000 :=
    div_nonneg (by linarith) (by norm_num)
  have h2 : (0 : ℚ) ≤ 33 / 1000 := by norm_num
  exact le_min h2 h1

theorem addFloor_nonneg {now : ℚ} {s : V1State} (hlast : s.lastT ≤ now) :
    0 ≤ ⌊revealRate * dtV1 now s⌋ := by
  rw [Int.floor_nonneg]
  exact mul_nonneg (by norm_num [revealRate]) (dtV1_nonneg hlast)

theorem rcAfterReveal_ge {pts : List Point} {now : ℚ} {s : V1State}
    (hlast : s.lastT ≤ now) (hle : s.revealCount ≤ (pts.length : ℤ)) :
    s.revealCount ≤ rcAfterReveal pts now s := by
  unfold rcAfterReveal
  split
  · have hadd := addFloor_nonneg hlast
    exact le_min hle (by omega)
  · exact le_refl _

theorem rcAfterReveal_nonneg {pts : List Point} {now : ℚ} {s : V1State}
    (hlast : s.lastT ≤ now) (h0 : 0 ≤ s.revealCount) :
    0 ≤ rcAfterReveal pts now s := by
  unfold rcAfterReveal
  split
  · have hadd := addFloor_nonneg hlast
    exact le_min (Int.natCast_nonneg _) (by omega)
  · exact h0

theorem rcAfterReveal_le {pts : List Point} {now : ℚ} {s : V1State}
    (hle : s.revealCount ≤ (pts.length : ℤ)) :
    rcAfterReveal pts now s ≤ (pts.length : ℤ) := by
  unfold rcAfterReveal
  split
  · exact min_le_left _ _
  · exact hle

theorem stepV1_lastT (pts : List Point) (now : ℚ) (s : V1State) :
    (stepV1 pts now s).lastT = now := by
  simp only [stepV1]
  split_ifs <;> rfl

theorem stepV1_le {pts : List Point} {now : ℚ} {s : V1State}
    (hle : s.revealCount ≤ (pts.length : ℤ)) :
    (stepV1 pts now s).revealCount ≤ (pts.length : ℤ) := by
  simp only [stepV1]
  split_ifs
  · exact Int.natCast_nonneg _
  · exact rcAfterReveal_le hle
  · exact rcAfterReveal_le hle

theorem stepV1_nonneg {pts : List Point} {now : ℚ} {s : V1State}
    (hlast : s.lastT ≤ now) (h0 : 0 ≤ s.revealCount) :
    0 ≤ (stepV1 pts now s).revealCount := by
  simp only [stepV1]
  split_ifs
  · exact le_refl _
  · exact rcAfterReveal_nonneg hlast h0
  · exact rcAfterReveal_nonneg hlast h0

theorem stepV1_mono {pts : List Point} {now : ℚ} {s : V1State}
    (hlast : s.lastT ≤ now) (hle : s.revealCount ≤ (pts.length : ℤ))
    (hnr : ¬ resetsV1 pts now s) :
    s.revealCount ≤ (stepV1 pts now s).revealCount := by
  simp only [stepV1]
  split_ifs with hprog hdwell
  · exact absurd ⟨hprog, hdwell⟩ hnr
  · exact rcAfterReveal_ge hlast hle
  · exact rcAfterReveal_ge hlast hle

theorem runV1_inv (pts : List Point) :
    ∀ (nows : List ℚ) (s : V1State),
      List.Chain' (· ≤ ·) (s.lastT :: nows) →
      0 ≤ s.revealCount → s.revealCount ≤ (pts.length : ℤ) →
      0 ≤ (runV1 pts nows s).revealCount ∧
        (runV1 pts nows s).revealCount ≤ (pts.length : ℤ)
  | [], s, _, h0, hle => ⟨h0, hle⟩
  | n :: ns, s, hchain, h0, hle => by
    rw [List.chain'_cons] at hchain
    obtain ⟨hlast, hchain⟩ := hchain
    have hstep := stepV1_lastT pts n s
    have hchain2 : List.Chain' (· ≤ ·) ((stepV1 pts n s).lastT :: ns) := by
      rw [hstep]; exact hchain
    exact runV1_inv pts ns (stepV1 pts n s) hchain2
      (stepV1_nonneg hlast h0) (stepV1_le hle)

theorem runV1_mono (pts : List Point) :
    ∀ (nows : List ℚ) (s : V1State),
      List.Chain' (· ≤ ·) (s.lastT :: nows) →
      0 ≤ s.revealCount → s.revealCount ≤ (pts.length : ℤ) →
      NoResetRun pts nows s →
      s.revealCount ≤ (runV1 pts nows s).revealCount
  | [], s, _, _, _, _ => le_refl _
  | n :: ns, s, hchain, h0, hle, hnr => by
    rw [List.chain'_cons] at hchain
    obtain ⟨hlast, hchain⟩ := hchain
    obtain ⟨hnr1, hnr2⟩ := hnr
    have hstep := stepV1_lastT pts n s
    have hchain2 : List.Chain' (· ≤ ·) ((stepV1 pts n s).lastT :: ns) := by
      rw [hstep]; exact hchain
    exact le_trans (stepV1_mono hlast hle hnr1)
      (runV1_mono pts ns (stepV1 pts n s) hchain2
        (stepV1_nonneg hlast h0) (stepV1_le hle) hnr2)

/-- Claim C3: in version 1, over any sequence of frame steps with
non-decreasing timestamps (so every `dt` is nonnegative), the reveal counter
is monotonically non-decreasing as long as no reset occurs, and after every
step it never exceeds `textPoints.length` (stated for the state reached
after any such run, from any state satisfying the startup invariant
`0 ≤ revealCount ≤ textPoints.length`). -/
theorem c3_revealCount_monotone_and_bounded (pts : List Point)
    (nows : List ℚ) (s : V1State)
    (hchain : List.Chain' (· ≤ ·) (s.lastT :: nows))
    (h0 : 0 ≤ s.revealCount) (hle : s.revealCount ≤ (pts.length : ℤ)) :
    (NoResetRun pts nows s →
        s.revealCount ≤ (runV1 pts nows s).revealCount) ∧
      (runV1 pts nows s).revealCount ≤ (pts.length : ℤ) :=
  ⟨fun hnr => runV1_mono pts nows s hchain h0 hle hnr,
    (runV1_inv pts nows s hchain h0 hle).2⟩

/-- Witness for C3 at a concrete one-frame run. -/
theorem c3_revealCount_monotone_and_bounded_witness :
    List.Chain' (· ≤ ·) ((⟨0, 0, 0, []⟩ : V1State).lastT :: [1]) ∧
      NoResetRun [(⟨0, 0⟩ : Point)] [1] ⟨0, 0, 0, []⟩ ∧
      (⟨0, 0, 0, []⟩ : V1State).revealCount ≤
        (runV1 [(⟨0, 0⟩ : Point)] [1] ⟨0, 0, 0, []⟩).revealCount ∧
      (runV1 [(⟨0, 0⟩ : Point)] [1] ⟨0, 0, 0, []⟩).revealCount ≤
        (([(⟨0, 0⟩ : Point)]).length : ℤ) :=
  ⟨by norm_num [List.chain'_cons],
    by norm_num [NoResetRun, resetsV1, completedAt1],
    (c3_revealCount_monotone_and_bounded [⟨0, 0⟩] [1] ⟨0, 0, 0, []⟩
      (by norm_num [List.chain'_cons]) (by norm_num) (by norm_num)).1
      (by norm_num [NoResetRun, resetsV1, completedAt1]),
    (c3_revealCount_monotone_and_bounded [⟨0, 0⟩] [1] ⟨0, 0, 0, []⟩
      (by norm_num [List.chain'_cons]) (by norm_num) (by norm_num)).2⟩

/-- Claim C7: in version 1, if the reveal has completed (`revealCount` at
the full point count, completion timestamp recorded) and more than 14
seconds have elapsed since completion, the next frame step resets the whole
cycle: `revealCount` to 0, `completedAt` to 0, ink buffer cleared. -/
theorem c7_dwell_reset (pts : List Point) (now : ℚ) (s : V1State)
    (hlast : s.lastT ≤ now) (hlen : 0 < pts.length)
    (hrc : s.revealCount = (pts.length : ℤ)) (hca : s.completedAt ≠ 0)
    (hdwell : 14 < (now - s.completedAt) / 1000) :
    stepV1 pts now s = { lastT := now, revealCount := 0, completedAt := 0, ink := [] } := by
  have hlen' : pts.length ≠ 0 := by omega
  have hadd := addFloor_nonneg hlast
  have hrc1 : rcAfterReveal pts now s = (pts.length : ℤ) := by
    unfold rcAfterReveal
    rw [if_pos hlen', hrc]
    omega
  have hca1 : completedAt1 now s = s.completedAt := by
    unfold completedAt1
    exact if_neg hca
  have hprog : 1 ≤ progressV1 pts (rcAfterReveal pts now s) := by
    rw [hrc1]
    unfold progressV1
    rw [if_neg hlen']
    have hq : (((pts.length : ℤ)) : ℚ) = (pts.length : ℚ) := by push_cast; ring
    have hne : (pts.length : ℚ) ≠ 0 := Nat.cast_ne_zero.mpr hlen'
    rw [hq, div_self hne]
  simp only [stepV1]
  rw [if_pos hprog, hca1, if_pos hdwell]

/-- Witness for C7 at a concrete completed state. -/
theorem c7_dwell_reset_witness :
    ((⟨0, 1, 1, [⟨2, 3⟩]⟩ : V1State).lastT ≤ (20000 : ℚ) ∧
        0 < ([(⟨0, 0⟩ : Point)]).length ∧
        (⟨0, 1, 1, [⟨2, 3⟩]⟩ : V1State).revealCount = (([(⟨0, 0⟩ : Point)]).length : ℤ) ∧
        (⟨0, 1, 1, [⟨2, 3⟩]⟩ : V1State).completedAt ≠ 0 ∧
        (14 : ℚ) < ((20000 : ℚ) - (⟨0, 1, 1, [⟨2, 3⟩]⟩ : V1State).completedAt) / 1000) ∧
      stepV1 [(⟨0, 0⟩ : Point)] 20000 ⟨0, 1, 1, [⟨2, 3⟩]⟩ =
        { lastT := 20000, revealCount := 0, completedAt := 0, ink := [] } :=
  ⟨⟨by norm_num, by norm_num, by norm_num, by norm_num, by norm_num⟩,
    c7_dwell_reset [⟨0, 0⟩] 20000 ⟨0, 1, 1, [⟨2, 3⟩]⟩
      (by norm_num) (by norm_num) (by norm_num) (by norm_num) (by norm_num)⟩

/-- The hotspot index of the version-1 sweep (line 313):
`Math.min(textPoints.length - 1, Math.floor(revealCount))`. -/
def hotspotIdx (pts : List Point) (rc : ℚ) : ℤ :=
  min ((pts.length : ℤ) - 1) ⌊rc⌋

/-! ### Version 2 beam advance (`advanceTip` in `src/app.js`, lines 340-394)

The traversal state of `src/app.js` (lines 69-74): letter index, point index
within the current letter, fractional progress towards the next point, the
current tip, the recent tail and the ink buffer contents (modelled, as in
version 1, by the list of points stamped by `burnPoint` since the last
clear).  `letters` is the list of per-letter point lists; the source's
`!letters[curL].points` check is always false (the field is always an
array), so only the `length < 2` test is modelled.  The source's `while`
loops are modelled with explicit fuel; the fuel bounds are proved
sufficient below. -/

structure V2State where
  curL : ℕ
  curIdx : ℕ
  curT : ℚ
  tip : Option Point
  tail : List Point
  ink : List Point
deriving DecidableEq, Repr

/-- Length of the point list of letter `i` (`letters[curL].points.length`);
0 when the index is out of range. -/
def lenAt (letters : List (List Point)) (i : ℕ) : ℕ :=
  (letters.getD i []).length

/-- The skip loop at the top of `advanceTip` (lines 342-344): step past
non-drawable letters, resetting point index, fraction, tip and tail at each
skip. -/
def skipResetF (letters : List (List Point)) : ℕ → V2State → V2State
  | 0, s => s
  | fuel + 1, s =>
    if s.curL < letters.length ∧ lenAt letters s.curL < 2 then
      skipResetF letters fuel
        { curL := s.curL + 1, curIdx := 0, curT := 0, tip := none, tail := [], ink := s.ink }
    else s

/-- The inner skip loop after finishing a letter (lines 368-370): only the
letter index advances. -/
def skipOnlyF (letters : List (List Point)) : ℕ → ℕ → ℕ
  | 0, curL => curL
  | fuel + 1, curL =>
    if curL < letters.length ∧ lenAt letters curL < 2 then
      skipOnlyF letters fuel (curL + 1)
    else curL

/-- The main advance loop of `advanceTip` (lines 362-393), one fuel unit per
iteration of `while(remaining > 0 && curL < letters.length)`; `none` models
fuel exhaustion and never occurs at the fuel bound used by `advanceTip`
(theorem below).  On finishing a letter the traversal state is reset and
non-drawable letters are skipped, returning when all letters are exhausted;
otherwise `min(1 - curT, remaining)` progress is consumed, the interpolated
point is stamped and becomes the tip, and the point index rolls over when
the fraction reaches 1. -/
def advLoopF (letters : List (List Point)) : ℕ → ℚ → V2State → Option V2State
  | 0, _, _ => none
  | fuel + 1, remaining, s =>
    if 0 < remaining ∧ s.curL < letters.length then
      if lenAt letters s.curL - 1 ≤ s.curIdx then
        let l2 := skipOnlyF letters letters.length (s.curL + 1)
        let s2 : V2State :=
          { curL := l2, curIdx := 0, curT := 0, tip := none, tail := [], ink := s.ink }
        if letters.length ≤ l2 then some s2
        else advLoopF letters fuel remaining s2
      else
        let step := min (1 - s.curT) remaining
        let t2 := s.curT + step
        let a := (letters.getD s.curL []).getD s.curIdx ⟨0, 0⟩
        let b := (letters.getD s.curL []).getD (s.curIdx + 1) ⟨0, 0⟩
        let p := lerpP a b t2
        let s3 : V2State :=
          if 1 ≤ t2 then
            { curL := s.curL, curIdx := s.curIdx + 1, curT := 0, tip := some p,
              tail := pushTail s.tail p, ink := s.ink ++ [p] }
          else
            { curL := s.curL, curIdx := s.curIdx, curT := t2, tip := some p,
              tail := pushTail s.tail p, ink := s.ink ++ [p] }
        advLoopF letters fuel (remaining - step) s3
    else some s

/-- Fuel bound for the advance loop, derived from the termination measure
`nu` below: every iteration strictly decreases `nu`, which never exceeds
this bound. -/
def loopFuel (letters : List (List Point)) : ℕ :=
  2 * ((letters.map List.length).sum + letters.length + 1) + 1

/-- Tip placement on entering a letter (lines 350-356): when there is no
tip, it is placed at the letter's first point, which is stamped and pushed
on the tail, and the point index and fraction are reset. -/
def tipInit (letters : List (List Point)) (s1 : V2State) : V2State :=
  if s1.tip = none then
    let p0 := (letters.getD s1.curL []).getD 0 ⟨0, 0⟩
    { curL := s1.curL, curIdx := 0, curT := 0, tip := some p0,
      tail := pushTail s1.tail p0, ink := s1.ink ++ [p0] }
  else s1

/-- `advanceTip(dt)` (lines 340-394): skip non-drawable letters; return
unchanged when all letters are exhausted; place and stamp the tip at the
letter's first point if there is no tip; then run the advance loop on a
budget of `pointsPerSecond * dt` point units. -/
def advanceTip (letters : List (List Point)) (dt : ℚ) (s : V2State) : V2State :=
  let s1 := skipResetF letters (letters.length - s.curL) s
  if letters.length ≤ s1.curL then s1
  else
    let s2 := tipInit letters s1
    (advLoopF letters (loopFuel letters) (pointsPerSecond * dt) s2).getD s2

/-- Bounds-checked variant of the advance loop: identical to `advLoopF`
except that the two point reads of the interpolation step go through
`List.get?`, propagating `none` on any out-of-range access. -/
def advLoopFC (letters : List (List Point)) : ℕ → ℚ → V2State → Option V2State
  | 0, _, _ => none
  | fuel + 1, remaining, s =>
    if 0 < remaining ∧ s.curL < letters.length then
      if lenAt letters s.curL - 1 ≤ s.curIdx then
        let l2 := skipOnlyF letters letters.length (s.curL + 1)
        let s2 : V2State :=
          { curL := l2, curIdx := 0, curT := 0, tip := none, tail := [], ink := s.ink }
        if letters.length ≤ l2 then some s2
        else advLoopFC letters fuel remaining s2
      else
        match (letters.getD s.curL []).get? s.curIdx,
            (letters.getD s.curL []).get? (s.curIdx + 1) with
        | some a, some b =>
          let step := min (1 - s.curT) remaining
          let t2 := s.curT + step
          let p := lerpP a b t2
          let s3 : V2State :=
            if 1 ≤ t2 then
              { curL := s.curL, curIdx := s.curIdx + 1, curT := 0, tip := some p,
                tail := pushTail s.tail p, ink := s.ink ++ [p] }
            else
              { curL := s.curL, curIdx := s.curIdx, curT := t2, tip := some p,
                tail := pushTail s.tail p, ink := s.ink ++ [p] }
          advLoopFC letters fuel (remaining - step) s3
        | _, _ => none
    else some s

/-- Bounds-checked variant of the tip placement: the read `pts[0]` goes
through `List.get?`. -/
def tipInitChecked (letters : List (List Point)) (s1 : V2State) : Option V2State :=
  if s1.tip = none then
    match (letters.getD s1.curL []).get? 0 with
    | none => none
    | some p0 =>
      some ({ curL := s1.curL, curIdx := 0, curT := 0, tip := some p0,
              tail := pushTail s1.tail p0, ink := s1.ink ++ [p0] } : V2State)
  else some s1

/-- Bounds-checked variant of `advanceTip`: every point read goes through
`List.get?`, propagating `none` on any out-of-range access. -/
def advanceTipChecked (letters : List (List Point)) (dt : ℚ) (s : V2State) :
    Option V2State :=
  let s1 := skipResetF letters (letters.length - s.curL) s
  if letters.length ≤ s1.curL then some s1
  else
    match tipInitChecked letters s1 with
    | none => none
    | some s2 => advLoopFC letters (loopFuel letters) (pointsPerSecond * dt) s2

/-! Termination measure for the advance loop. -/

/-- Total point count of the letters from index `i` on. -/
def sumFrom (letters : List (List Point)) (i : ℕ) : ℕ :=
  ((letters.drop i).map List.length).sum

/-- Primary measure: remaining points and letters ahead of the cursor. -/
def mu (letters : List (List Point)) (curL curIdx : ℕ) : ℕ :=
  sumFrom letters curL + (letters.length - curL) + 1 - min curIdx (lenAt letters curL)

/-- Full measure: `mu` plus a flag for a still-positive budget. -/
def nu (letters : List (List Point)) (remaining : ℚ) (curL curIdx : ℕ) : ℕ :=
  2 * mu letters curL curIdx + (if 0 < remaining then 1 else 0)

theorem lenAt_eq_zero_of_le {letters : List (List Point)} {i : ℕ}
    (h : letters.length ≤ i) : lenAt letters i = 0 := by
  unfold lenAt
  rw [List.getD_eq_default _ _ h]
  rfl

theorem sumFrom_succ_of_lt {letters : List (List Point)} {i : ℕ}
    (h : i < letters.length) :
    sumFrom letters i = lenAt letters i + sumFrom letters (i + 1) := by
  unfold sumFrom lenAt
  rw [List.drop_eq_getElem_cons h, List.getD_eq_getElem _ _ h,
    List.map_cons, List.sum_cons]

theorem sumFrom_zero_of_le {letters : List (List Point)} {i : ℕ}
    (h : letters.length ≤ i) : sumFrom letters i = 0 := by
  unfold sumFrom
  rw [List.drop_eq_nil_of_le h]
  rfl

theorem sumFrom_succ_le (letters : List (List Point)) (i : ℕ) :
    sumFrom letters (i + 1) ≤ sumFrom letters i := by
  by_cases h : i < letters.length
  · rw [sumFrom_succ_of_lt h]; omega
  · push_neg at h
    rw [sumFrom_zero_of_le h, sumFrom_zero_of_le (by omega)]

theorem sumFrom_anti (letters : List (List Point)) {i : ℕ} :
    ∀ {j : ℕ}, i ≤ j → sumFrom letters j ≤ sumFrom letters i := by
  intro j hij
  induction j with
  | zero =>
    have hi0 : i = 0 := by omega
    subst hi0
    exact le_refl _
  | succ k ih =>
    rcases Nat.lt_or_ge i (k + 1) with hlt | hge
    · exact le_trans (sumFrom_succ_le letters k) (ih (by omega))
    · have hik : i = k + 1 := by omega
      subst hik
      exact le_refl _

theorem lenAt_le_sumFrom (letters : List (List Point)) (i : ℕ) :
    lenAt letters i ≤ sumFrom letters i := by
  by_cases h : i < letters.length
  · rw [sumFrom_succ_of_lt h]; omega
  · push_neg at h
    rw [lenAt_eq_zero_of_le h]
    omega

theorem mu_pos (letters : List (List Point)) (curL curIdx : ℕ) :
    1 ≤ mu letters curL curIdx := by
  have h2 := lenAt_le_sumFrom letters curL
  unfold mu
  omega

theorem mu_le (letters : List (List Point)) (curL curIdx : ℕ) :
    mu letters curL curIdx ≤ (letters.map List.length).sum + letters.length + 1 := by
  have h1 : sumFrom letters curL ≤ sumFrom letters 0 :=
    sumFrom_anti letters (Nat.zero_le _)
  have h0 : sumFrom letters 0 = (letters.map List.length).sum := rfl
  unfold mu
  omega

theorem nu_le_loopFuel (letters : List (List Point)) (remaining : ℚ)
    (curL curIdx : ℕ) :
    nu letters remaining curL curIdx ≤ loopFuel letters := by
  have := mu_le letters curL curIdx
  unfold nu loopFuel
  split <;> omega

theorem skipOnlyF_ge (letters : List (List Point)) :
    ∀ (fuel c : ℕ), c ≤ skipOnlyF letters fuel c
  | 0, c => le_refl c
  | fuel + 1, c => by
    unfold skipOnlyF
    split
    · exact le_trans (by omega) (skipOnlyF_ge letters fuel (c + 1))
    · exact le_refl c

theorem skipOnlyF_drawable (letters : List (List Point)) :
    ∀ (fuel c : ℕ), letters.length ≤ fuel + c →
      letters.length ≤ skipOnlyF letters fuel c ∨
        2 ≤ lenAt letters (skipOnlyF letters fuel c)
  | 0, c, h => Or.inl (by simpa using h)
  | fuel + 1, c, h => by
    unfold skipOnlyF
    split
    · exact skipOnlyF_drawable letters fuel (c + 1) (by omega)
    · rename_i hg
      push_neg at hg
      rcases Nat.lt_or_ge c letters.length with hlt | hge
      · exact Or.inr (hg hlt)
      · exact Or.inl hge

theorem nu_lt_finish (letters : List (List Point)) (rem rem2 : ℚ)
    (curL curIdx : ℕ) (hcl : curL < letters.length) :
    nu letters rem2 (skipOnlyF letters letters.length (curL + 1)) 0 <
      nu letters rem curL curIdx := by
  have hge : curL + 1 ≤ skipOnlyF letters letters.length (curL + 1) :=
    skipOnlyF_ge letters letters.length (curL + 1)
  have hS : sumFrom letters curL = lenAt letters curL + sumFrom letters (curL + 1) :=
    sumFrom_succ_of_lt hcl
  have hS2 : sumFrom letters (skipOnlyF letters letters.length (curL + 1)) ≤
      sumFrom letters (curL + 1) := sumFrom_anti letters hge
  unfold nu mu
  split <;> split <;> omega

theorem nu_lt_consume_idx (letters : List (List Point)) (rem rem2 : ℚ)
    (curL curIdx : ℕ) (hrem : 0 < rem)
    (hidx : curIdx < lenAt letters curL - 1) :
    nu letters rem2 curL (curIdx + 1) < nu letters rem curL curIdx := by
  have hlen := lenAt_le_sumFrom letters curL
  unfold nu mu
  rw [if_pos hrem]
  split <;> omega

theorem nu_lt_consume_rem (letters : List (List Point)) (rem rem2 : ℚ)
    (curL curIdx : ℕ) (hrem : 0 < rem) (hrem2 : ¬ 0 < rem2) :
    nu letters rem2 curL curIdx < nu letters rem curL curIdx := by
  unfold nu
  rw [if_pos hrem, if_neg hrem2]
  omega

/-- When an interpolation step does not reach the next point, it has
consumed the entire remaining budget. -/
theorem budget_exhausted {curT remaining : ℚ}
    (h : ¬ 1 ≤ curT + min (1 - curT) remaining) :
    ¬ 0 < remaining - min (1 - curT) remaining := by
  rcases le_total (1 - curT) remaining with hle | hle
  · exact absurd (by rw [min_eq_left hle]; linarith) h
  · rw [min_eq_right hle]; linarith

theorem advLoopF_isSome (letters : List (List Point)) :
    ∀ (fuel : ℕ) (remaining : ℚ) (s : V2State),
      nu letters remaining s.curL s.curIdx ≤ fuel →
      (advLoopF letters fuel remaining s).isSome
  | 0, remaining, s, h => by
    have := mu_pos letters s.curL s.curIdx
    unfold nu at h
    split at h <;> omega
  | fuel + 1, remaining, s, h => by
    simp only [advLoopF]
    by_cases hg : 0 < remaining ∧ s.curL < letters.length
    · rw [if_pos hg]
      by_cases hfin : lenAt letters s.curL - 1 ≤ s.curIdx
      · rw [if_pos hfin]
        by_cases hl2 : letters.length ≤ skipOnlyF letters letters.length (s.curL + 1)
        · rw [if_pos hl2]; rfl
        · rw [if_neg hl2]
          apply advLoopF_isSome letters fuel remaining
          have hlt := nu_lt_finish letters remaining remaining
            s.curL s.curIdx hg.2
          dsimp only
          omega
      · rw [if_neg hfin]
        push_neg at hfin
        by_cases ht2 : 1 ≤ s.curT + min (1 - s.curT) remaining
        · rw [if_pos ht2]
          apply advLoopF_isSome letters fuel
          have hlt := nu_lt_consume_idx letters remaining
            (remaining - min (1 - s.curT) remaining) s.curL s.curIdx hg.1 hfin
          dsimp only
          omega
        · rw [if_neg ht2]
          apply advLoopF_isSome letters fuel
          have hlt := nu_lt_consume_rem letters
            remaining (remaining - min (1 - s.curT) remaining)
            s.curL s.curIdx hg.1 (budget_exhausted ht2)
          dsimp only
          omega
    · rw [if_neg hg]; rfl

theorem advLoopF_fuel_congr (letters : List (List Point)) :
    ∀ (f1 f2 : ℕ) (remaining : ℚ) (s : V2State),
      nu letters remaining s.curL s.curIdx ≤ f1 →
      nu letters remaining s.curL s.curIdx ≤ f2 →
      advLoopF letters f1 remaining s = advLoopF letters f2 remaining s
  | 0, f2, remaining, s, h1, _ => by
    have := mu_pos letters s.curL s.curIdx
    unfold nu at h1
    split at h1 <;> omega
  | f1 + 1, 0, remaining, s, _, h2 => by
    have := mu_pos letters s.curL s.curIdx
    unfold nu at h2
    split at h2 <;> omega
  | f1 + 1, f2 + 1, remaining, s, h1, h2 => by
    simp only [advLoopF]
    by_cases hg : 0 < remaining ∧ s.curL < letters.length
    · rw [if_pos hg, if_pos hg]
      by_cases hfin : lenAt letters s.curL - 1 ≤ s.curIdx
      · rw [if_pos hfin, if_pos hfin]
        by_cases hl2 : letters.length ≤ skipOnlyF letters letters.length (s.curL + 1)
        · rw [if_pos hl2, if_pos hl2]
        · rw [if_neg hl2, if_neg hl2]
          have hlt := nu_lt_finish letters remaining remaining
            s.curL s.curIdx hg.2
          refine advLoopF_fuel_congr letters f1 f2 remaining _ ?_ ?_
          · dsimp only
            omega
          · dsimp only
            omega
      · rw [if_neg hfin, if_neg hfin]
        push_neg at hfin
        by_cases ht2 : 1 ≤ s.curT + min (1 - s.curT) remaining
        · rw [if_pos ht2]
          have hlt := nu_lt_consume_idx letters remaining
            (remaining - min (1 - s.curT) remaining) s.curL s.curIdx hg.1 hfin
          refine advLoopF_fuel_congr letters f1 f2 _ _ ?_ ?_
          · dsimp only
            omega
          · dsimp only
            omega
        · rw [if_neg ht2]
          have hlt := nu_lt_consume_rem letters
            remaining (remaining - min (1 - s.curT) remaining)
            s.curL s.curIdx hg.1 (budget_exhausted ht2)
          refine advLoopF_fuel_congr letters f1 f2 _ _ ?_ ?_
          · dsimp only
            omega
          · dsimp only
            omega
    · rw [if_neg hg, if_neg hg]

theorem get?_eq_getD {l : List Point} {i : ℕ} (h : i < l.length) :
    l.get? i = some (l.getD i ⟨0, 0⟩) := by
  rw [List.getD_eq_getElem _ _ h, List.get?_eq_getElem?]
  exact List.getElem?_eq_getElem h

theorem advLoopFC_eq (letters : List (List Point)) :
    ∀ (fuel : ℕ) (remaining : ℚ) (s : V2State),
      advLoopFC letters fuel remaining s = advLoopF letters fuel remaining s
  | 0, _, _ => rfl
  | fuel + 1, remaining, s => by
    simp only [advLoopFC, advLoopF]
    by_cases hg : 0 < remaining ∧ s.curL < letters.length
    · rw [if_pos hg, if_pos hg]
      by_cases hfin : lenAt letters s.curL - 1 ≤ s.curIdx
      · rw [if_pos hfin, if_pos hfin]
        by_cases hl2 : letters.length ≤ skipOnlyF letters letters.length (s.curL + 1)
        · rw [if_pos hl2, if_pos hl2]
        · rw [if_neg hl2, if_neg hl2]
          exact advLoopFC_eq letters fuel remaining _
      · rw [if_neg hfin, if_neg hfin]
        push_neg at hfin
        have hlt : s.curIdx + 1 < (letters.getD s.curL []).length := by
          unfold lenAt at hfin; omega
        rw [get?_eq_getD (by omega), get?_eq_getD hlt]
        dsimp only
        exact advLoopFC_eq letters fuel _ _
    · rw [if_neg hg, if_neg hg]

/-- Claim C10: `advanceTip` terminates for every finite letters list, every
starting state and every budget: its advance loop, modelled with one fuel
unit per `while` iteration, finishes within the `loopFuel` bound for every
state — any fuel at least that bound gives the same result (the loop is
fuel-insensitive beyond the bound), and the loop always returns a state
(fuel exhaustion never occurs), because every iteration either zeroes the
remaining budget, advances the point index, or advances the letter index. -/
theorem c10_advance_loop_terminates (letters : List (List Point))
    (remaining : ℚ) (s : V2State) (fuel : ℕ)
    (hfuel : loopFuel letters ≤ fuel) :
    advLoopF letters fuel remaining s =
        advLoopF letters (loopFuel letters) remaining s ∧
      (advLoopF letters (loopFuel letters) remaining s).isSome :=
  ⟨advLoopF_fuel_congr letters fuel (loopFuel letters) remaining s
      (le_trans (nu_le_loopFuel letters remaining s.curL s.curIdx) hfuel)
      (nu_le_loopFuel letters remaining s.curL s.curIdx),
    advLoopF_isSome letters (loopFuel letters) remaining s
      (nu_le_loopFuel letters remaining s.curL s.curIdx)⟩

/-- Witness for C10 at a concrete letters list and state. -/
theorem c10_advance_loop_terminates_witness :
    loopFuel [[(⟨0, 0⟩ : Point), ⟨1, 1⟩]] ≤ loopFuel [[(⟨0, 0⟩ : Point), ⟨1, 1⟩]] ∧
      (advLoopF [[(⟨0, 0⟩ : Point), ⟨1, 1⟩]]
          (loopFuel [[(⟨0, 0⟩ : Point), ⟨1, 1⟩]]) 0
          ⟨0, 0, 0, none, [], []⟩).isSome :=
  ⟨le_refl _,
    (c10_advance_loop_terminates [[(⟨0, 0⟩ : Point), ⟨1, 1⟩]] 0
        ⟨0, 0, 0, none, [], []⟩ _ (le_refl _)).2⟩

/-- Claim C6: in version 2, once all letters are exhausted
(`curL >= letters.length`), `advanceTip` is a no-op for every call and every
`dt`: the entire state — `curL`, `curIdx`, `curT`, tip, tail and ink
buffer — is left unchanged, so no reset ever occurs and the written text
stays permanently in the ink buffer. -/
theorem c6_exhausted_noop (letters : List (List Point)) (dt : ℚ) (s : V2State)
    (h : letters.length ≤ s.curL) : advanceTip letters dt s = s := by
  have h0 : letters.length - s.curL = 0 := Nat.sub_eq_zero_of_le h
  simp only [advanceTip, h0, skipResetF]
  rw [if_pos h]

/-- Witness for C6 at a concrete exhausted state. -/
theorem c6_exhausted_noop_witness :
    ([[(⟨0, 0⟩ : Point), ⟨1, 1⟩]] : List (List Point)).length ≤
        (⟨5, 3, 0, none, [], [⟨1, 1⟩]⟩ : V2State).curL ∧
      advanceTip [[(⟨0, 0⟩ : Point), ⟨1, 1⟩]] 7 ⟨5, 3, 0, none, [], [⟨1, 1⟩]⟩ =
        ⟨5, 3, 0, none, [], [⟨1, 1⟩]⟩ :=
  ⟨by decide,
    c6_exhausted_noop [[(⟨0, 0⟩ : Point), ⟨1, 1⟩]] 7 ⟨5, 3, 0, none, [], [⟨1, 1⟩]⟩
      (by decide)⟩

theorem skipResetF_curT (letters : List (List Point)) :
    ∀ (fuel : ℕ) (s : V2State),
      (skipResetF letters fuel s).curT = s.curT ∨
        (skipResetF letters fuel s).curT = 0
  | 0, s => Or.inl rfl
  | fuel + 1, s => by
    unfold skipResetF
    split
    · rcases skipResetF_curT letters fuel
        { curL := s.curL + 1, curIdx := 0, curT := 0, tip := none, tail := [],
          ink := s.ink } with h | h
      · exact Or.inr h
      · exact Or.inr h
    · exact Or.inl rfl

theorem advLoopF_curT (letters : List (List Point)) :
    ∀ (fuel : ℕ) (remaining : ℚ) (s r : V2State),
      0 ≤ s.curT → s.curT < 1 →
      advLoopF letters fuel remaining s = some r →
      0 ≤ r.curT ∧ r.curT < 1
  | 0, remaining, s, r, _, _, h => by simp [advLoopF] at h
  | fuel + 1, remaining, s, r, h0, h1, h => by
    simp only [advLoopF] at h
    by_cases hg : 0 < remaining ∧ s.curL < letters.length
    · rw [if_pos hg] at h
      by_cases hfin : lenAt letters s.curL - 1 ≤ s.curIdx
      · rw [if_pos hfin] at h
        by_cases hl2 : letters.length ≤ skipOnlyF letters letters.length (s.curL + 1)
        · rw [if_pos hl2] at h
          obtain rfl := Option.some.inj h
          exact ⟨le_refl 0, by norm_num⟩
        · rw [if_neg hl2] at h
          exact advLoopF_curT letters fuel remaining _ r (le_refl 0) (by norm_num) h
      · rw [if_neg hfin] at h
        by_cases ht2 : 1 ≤ s.curT + min (1 - s.curT) remaining
        · rw [if_pos ht2] at h
          exact advLoopF_curT letters fuel _ _ r (le_refl 0) (by norm_num) h
        · rw [if_neg ht2] at h
          have hmin : (0 : ℚ) < min (1 - s.curT) remaining :=
            lt_min (by linarith) hg.1
          exact advLoopF_curT letters fuel _ _ r (by dsimp only; linarith)
            (by dsimp only; exact lt_of_not_ge ht2) h
    · rw [if_neg hg] at h
      obtain rfl := Option.some.inj h
      exact ⟨h0, h1⟩

theorem tipInit_curT (letters : List (List Point)) (s1 : V2State) :
    (tipInit letters s1).curT = s1.curT ∨ (tipInit letters s1).curT = 0 := by
  unfold tipInit
  split
  · exact Or.inr rfl
  · exact Or.inl rfl

/-- Claim C4: in version 2, immediately after any `advanceTip` call with
`dt ≥ 0`, for any letters list and any traversal state satisfying the
fractional-progress invariant (`curT ∈ [0,1)`, established at startup where
`curT = 0` and preserved by every step), the fractional progress again lies
in `[0,1)`. -/
theorem c4_curT_in_unit_interval (letters : List (List Point)) (dt : ℚ)
    (s : V2State) (_hdt : 0 ≤ dt) (h0 : 0 ≤ s.curT) (h1 : s.curT < 1) :
    0 ≤ (advanceTip letters dt s).curT ∧ (advanceTip letters dt s).curT < 1 := by
  simp only [advanceTip]
  have hs1 : 0 ≤ (skipResetF letters (letters.length - s.curL) s).curT ∧
      (skipResetF letters (letters.length - s.curL) s).curT < 1 := by
    rcases skipResetF_curT letters (letters.length - s.curL) s with h | h
    · rw [h]; exact ⟨h0, h1⟩
    · rw [h]; exact ⟨le_refl 0, by norm_num⟩
  by_cases hend : letters.length ≤ (skipResetF letters (letters.length - s.curL) s).curL
  · rw [if_pos hend]
    exact hs1
  · rw [if_neg hend]
    have hs2 : 0 ≤ (tipInit letters (skipResetF letters (letters.length - s.curL) s)).curT ∧
        (tipInit letters (skipResetF letters (letters.length - s.curL) s)).curT < 1 := by
      rcases tipInit_curT letters (skipResetF letters (letters.length - s.curL) s) with h | h
      · rw [h]; exact hs1
      · rw [h]; exact ⟨le_refl 0, by norm_num⟩
    obtain ⟨r, hr⟩ := Option.isSome_iff_exists.mp
      (advLoopF_isSome letters (loopFuel letters) (pointsPerSecond * dt)
        (tipInit letters (skipResetF letters (letters.length - s.curL) s))
        (nu_le_loopFuel letters _ _ _))
    rw [hr, Option.getD_some]
    exact advLoopF_curT letters (loopFuel letters) (pointsPerSecond * dt) _ r
      hs2.1 hs2.2 hr

/-- Any member of `pushTail t p` is an old tail entry or `p` itself. -/
theorem pushTail_mem {t : List Point} {p q : Point} (h : q ∈ pushTail t p) :
    q ∈ t ∨ q = p := by
  unfold pushTail at h
  cases hl : t.getLast? with
  | none =>
    rw [hl] at h
    dsimp only at h
    exact Or.inr (List.mem_singleton.mp h)
  | some lastp =>
    rw [hl] at h
    dsimp only at h
    split at h
    · split at h
      · have h2 := List.mem_of_mem_tail h
        rcases List.mem_append.mp h2 with h3 | h3
        · exact Or.inl h3
        · exact Or.inr (List.mem_singleton.mp h3)
      · rcases List.mem_append.mp h with h3 | h3
        · exact Or.inl h3
        · exact Or.inr (List.mem_singleton.mp h3)
    · exact Or.inl h

/-! ### Provenance of stamped points (claim C8)

Every point that `advanceTip` stamps, pushes on the tail or makes the tip
originates from a drawable letter (one with at least 2 points): it is either
such a letter's first point or an interpolation between two consecutive
points of such a letter.  In particular no point of a skipped (fewer than
2 points) letter is ever touched. -/

/-- `p` originates from a drawable letter of `letters`. -/
def FromDrawable (letters : List (List Point)) (p : Point) : Prop :=
  ∃ pts ∈ letters, 2 ≤ pts.length ∧
    (p = pts.getD 0 ⟨0, 0⟩ ∨
      ∃ i t, i + 1 < pts.length ∧
        p = lerpP (pts.getD i ⟨0, 0⟩) (pts.getD (i + 1) ⟨0, 0⟩) t)

/-- State evolution delta: the ink buffer only grows by drawable-derived
points, the tip is unchanged, cleared, or a drawable-derived point, and
every tail entry is an old one or a drawable-derived point. -/
def Delta (letters : List (List Point)) (s r : V2State) : Prop :=
  (∃ L, r.ink = s.ink ++ L ∧ ∀ p ∈ L, FromDrawable letters p) ∧
    (r.tip = s.tip ∨ r.tip = none ∨
      ∃ p, r.tip = some p ∧ FromDrawable letters p) ∧
    (∀ p ∈ r.tail, p ∈ s.tail ∨ FromDrawable letters p)

theorem delta_refl {letters : List (List Point)} {s : V2State} :
    Delta letters s s :=
  ⟨⟨[], by simp, by simp⟩, Or.inl rfl, fun _p hp => Or.inl hp⟩

theorem delta_trans {letters : List (List Point)} {s t r : V2State}
    (h1 : Delta letters s t) (h2 : Delta letters t r) : Delta letters s r := by
  obtain ⟨⟨L1, hi1, hF1⟩, htip1, htail1⟩ := h1
  obtain ⟨⟨L2, hi2, hF2⟩, htip2, htail2⟩ := h2
  refine ⟨⟨L1 ++ L2, by rw [hi2, hi1, List.append_assoc], ?_⟩, ?_, ?_⟩
  · intro p hp
    rcases List.mem_append.mp hp with h | h
    exacts [hF1 p h, hF2 p h]
  · rcases htip2 with h | h | h
    · rw [h]; exact htip1
    · exact Or.inr (Or.inl h)
    · exact Or.inr (Or.inr h)
  · intro p hp
    rcases htail2 p hp with h | h
    · exact htail1 p h
    · exact Or.inr h

/-- The traversal-reset states written by the skip loops are pure deltas. -/
theorem delta_reset {letters : List (List Point)} {s : V2State}
    (l2 : ℕ) : Delta letters s ⟨l2, 0, 0, none, [], s.ink⟩ :=
  ⟨⟨[], by simp, by simp⟩, Or.inr (Or.inl rfl),
    fun p hp => absurd hp (List.not_mem_nil p)⟩

/-- Stamping a drawable-derived point is a delta. -/
theorem delta_stamp {letters : List (List Point)} {s : V2State} {pp : Point}
    (cL cI : ℕ) (cT : ℚ) (hpp : FromDrawable letters pp) :
    Delta letters s ⟨cL, cI, cT, some pp, pushTail s.tail pp, s.ink ++ [pp]⟩ := by
  refine ⟨⟨[pp], Eq.refl _, ?_⟩, Or.inr (Or.inr ⟨pp, Eq.refl _, hpp⟩), ?_⟩
  · intro p hp
    rcases List.mem_singleton.mp hp with rfl
    exact hpp
  · intro p hp
    rcases pushTail_mem hp with h | rfl
    · exact Or.inl h
    · exact Or.inr hpp

theorem getD_mem {letters : List (List Point)} {i : ℕ}
    (h : i < letters.length) : letters.getD i [] ∈ letters := by
  rw [List.getD_eq_getElem _ _ h]
  exact List.getElem_mem h

theorem skipResetF_ink (letters : List (List Point)) :
    ∀ (fuel : ℕ) (s : V2State), (skipResetF letters fuel s).ink = s.ink
  | 0, _ => rfl
  | fuel + 1, s => by
    unfold skipResetF
    split
    · exact skipResetF_ink letters fuel _
    · rfl

theorem skipResetF_tip (letters : List (List Point)) :
    ∀ (fuel : ℕ) (s : V2State),
      (skipResetF letters fuel s).tip = s.tip ∨ (skipResetF letters fuel s).tip = none
  | 0, _ => Or.inl rfl
  | fuel + 1, s => by
    unfold skipResetF
    split
    · rcases skipResetF_tip letters fuel
        { curL := s.curL + 1, curIdx := 0, curT := 0, tip := none, tail := [],
          ink := s.ink } with h | h
      · exact Or.inr h
      · exact Or.inr h
    · exact Or.inl rfl

theorem skipResetF_tail (letters : List (List Point)) :
    ∀ (fuel : ℕ) (s : V2State),
      (skipResetF letters fuel s).tail = s.tail ∨ (skipResetF letters fuel s).tail = []
  | 0, _ => Or.inl rfl
  | fuel + 1, s => by
    unfold skipResetF
    split
    · rcases skipResetF_tail letters fuel
        { curL := s.curL + 1, curIdx := 0, curT := 0, tip := none, tail := [],
          ink := s.ink } with h | h
      · exact Or.inr h
      · exact Or.inr h
    · exact Or.inl rfl

theorem skipResetF_post (letters : List (List Point)) :
    ∀ (fuel : ℕ) (s : V2State), letters.length ≤ fuel + s.curL →
      letters.length ≤ (skipResetF letters fuel s).curL ∨
        2 ≤ lenAt letters (skipResetF letters fuel s).curL
  | 0, s, h => Or.inl (by simpa using h)
  | fuel + 1, s, h => by
    unfold skipResetF
    split
    · exact skipResetF_post letters fuel _ (by show letters.length ≤ fuel + (s.curL + 1); omega)
    · rename_i hg
      push_neg at hg
      rcases Nat.lt_or_ge s.curL letters.length with hlt | hge
      · exact Or.inr (hg hlt)
      · exact Or.inl hge

/-- `skipResetF` only produces a pure delta of the state. -/
theorem skipResetF_delta (letters : List (List Point)) (fuel : ℕ) (s : V2State) :
    Delta letters s (skipResetF letters fuel s) := by
  refine ⟨⟨[], by simp [skipResetF_ink], by simp⟩, ?_, ?_⟩
  · rcases skipResetF_tip letters fuel s with h | h
    · exact Or.inl h
    · exact Or.inr (Or.inl h)
  · intro p hp
    rcases skipResetF_tail letters fuel s with h | h
    · rw [h] at hp; exact Or.inl hp
    · rw [h] at hp; exact absurd hp (List.not_mem_nil p)

/-- The advance loop only produces drawable-derived deltas and leaves the
cursor on a drawable letter or past the end. -/
theorem advLoopF_provenance (letters : List (List Point)) :
    ∀ (fuel : ℕ) (remaining : ℚ) (s r : V2State),
      advLoopF letters fuel remaining s = some r →
      (2 ≤ lenAt letters s.curL ∨ letters.length ≤ s.curL) →
      Delta letters s r ∧
        (2 ≤ lenAt letters r.curL ∨ letters.length ≤ r.curL)
  | 0, remaining, s, r, h, _ => by simp [advLoopF] at h
  | fuel + 1, remaining, s, r, h, hinv => by
    simp only [advLoopF] at h
    by_cases hg : 0 < remaining ∧ s.curL < letters.length
    · rw [if_pos hg] at h
      by_cases hfin : lenAt letters s.curL - 1 ≤ s.curIdx
      · rw [if_pos hfin] at h
        by_cases hl2 : letters.length ≤ skipOnlyF letters letters.length (s.curL + 1)
        · rw [if_pos hl2] at h
          obtain rfl := Option.some.inj h
          exact ⟨delta_reset _, Or.inr hl2⟩
        · rw [if_neg hl2] at h
          have hinv2 : 2 ≤ lenAt letters
              (skipOnlyF letters letters.length (s.curL + 1)) ∨
              letters.length ≤ skipOnlyF letters letters.length (s.curL + 1) := by
            rcases skipOnlyF_drawable letters letters.length (s.curL + 1)
              (by omega) with h' | h'
            · exact Or.inr h'
            · exact Or.inl h'
          obtain ⟨hdelta, hpost⟩ :=
            advLoopF_provenance letters fuel remaining _ r h hinv2
          exact ⟨delta_trans (delta_reset _) hdelta, hpost⟩
      · rw [if_neg hfin] at h
        push_neg at hfin
        have hdraw : 2 ≤ lenAt letters s.curL := by
          rcases hinv with h' | h'
          · exact h'
          · omega
        have hidx : s.curIdx + 1 < (letters.getD s.curL []).length := by
          unfold lenAt at hfin
          omega
        have hFD : ∀ t : ℚ, FromDrawable letters
            (lerpP ((letters.getD s.curL []).getD s.curIdx ⟨0, 0⟩)
              ((letters.getD s.curL []).getD (s.curIdx + 1) ⟨0, 0⟩) t) :=
          fun t => ⟨letters.getD s.curL [], getD_mem hg.2, hdraw,
            Or.inr ⟨s.curIdx, t, hidx, Eq.refl _⟩⟩
        split at h
        · obtain ⟨hdelta, hpost⟩ :=
            advLoopF_provenance letters fuel _ _ r h (Or.inl hdraw)
          exact ⟨delta_trans (delta_stamp _ _ _ (hFD _)) hdelta, hpost⟩
        · obtain ⟨hdelta, hpost⟩ :=
            advLoopF_provenance letters fuel _ _ r h (Or.inl hdraw)
          exact ⟨delta_trans (delta_stamp _ _ _ (hFD _)) hdelta, hpost⟩
    · rw [if_neg hg] at h
      obtain rfl := Option.some.inj h
      exact ⟨delta_refl, hinv⟩

/-- Claim C8: in version 2, letters with fewer than 2 points are skipped
entirely: for every call, `advanceTip` only stamps, pushes on the tail, or
makes the tip points derived from drawable letters (at least 2 points) —
the first point of such a letter or an interpolation between two of its
consecutive points — and it always leaves the cursor either past the end or
on a drawable letter, never on a skipped one. -/
theorem c8_skips_non_drawable (letters : List (List Point)) (dt : ℚ)
    (s : V2State) :
    Delta letters s (advanceTip letters dt s) ∧
      (2 ≤ lenAt letters (advanceTip letters dt s).curL ∨
        letters.length ≤ (advanceTip letters dt s).curL) := by
  simp only [advanceTip]
  have hd1 : Delta letters s (skipResetF letters (letters.length - s.curL) s) :=
    skipResetF_delta letters _ s
  have hpost1 := skipResetF_post letters (letters.length - s.curL) s (by omega)
  by_cases hend : letters.length ≤ (skipResetF letters (letters.length - s.curL) s).curL
  · rw [if_pos hend]
    exact ⟨hd1, Or.inr hend⟩
  · rw [if_neg hend]
    have hdraw1 : 2 ≤ lenAt letters (skipResetF letters (letters.length - s.curL) s).curL := by
      rcases hpost1 with h' | h'
      · exact absurd h' hend
      · exact h'
    have hd2 : Delta letters (skipResetF letters (letters.length - s.curL) s)
        (tipInit letters (skipResetF letters (letters.length - s.curL) s)) ∧
        (tipInit letters (skipResetF letters (letters.length - s.curL) s)).curL =
          (skipResetF letters (letters.length - s.curL) s).curL := by
      unfold tipInit
      split
      · refine ⟨delta_stamp _ _ _ ?_, rfl⟩
        exact ⟨letters.getD (skipResetF letters (letters.length - s.curL) s).curL [],
          getD_mem (lt_of_not_ge hend), hdraw1, Or.inl (Eq.refl _)⟩
      · exact ⟨delta_refl, rfl⟩
    obtain ⟨r, hr⟩ := Option.isSome_iff_exists.mp
      (advLoopF_isSome letters (loopFuel letters) (pointsPerSecond * dt)
        (tipInit letters (skipResetF letters (letters.length - s.curL) s))
        (nu_le_loopFuel letters _ _ _))
    rw [hr, Option.getD_some]
    obtain ⟨hd3, hpost3⟩ := advLoopF_provenance letters (loopFuel letters)
      (pointsPerSecond * dt) _ r hr (by rw [hd2.2]; exact Or.inl hdraw1)
    exact ⟨delta_trans hd1 (delta_trans hd2.1 hd3), hpost3⟩

/-- When the cursor letter is drawable, the checked tip placement succeeds
and agrees with the unchecked one. -/
theorem tipInitChecked_eq {letters : List (List Point)} {s1 : V2State}
    (hdraw : 2 ≤ lenAt letters s1.curL) :
    tipInitChecked letters s1 = some (tipInit letters s1) := by
  unfold tipInitChecked tipInit
  split
  · have h0 : 0 < (letters.getD s1.curL []).length := by
      unfold lenAt at hdraw
      omega
    rw [get?_eq_getD h0]
  · rfl

/-- Claim C9: every point-array access of a frame step stays in bounds.
Version 1: the hotspot read `textPoints[idx]` with
`idx = min(textPoints.length - 1, floor(revealCount))` is in bounds whenever
its guard `idx >= 0` holds.  Version 2: the variant of `advanceTip` whose
point reads (`pts[0]`, `pts[curIdx]`, `pts[curIdx+1]`) all go through
`Option`-returning index access never returns `none` — on every input it
returns exactly the unchecked result. -/
theorem c9_no_out_of_bounds :
    (∀ (pts : List Point) (rc : ℚ), 0 ≤ hotspotIdx pts rc →
        (hotspotIdx pts rc).toNat < pts.length) ∧
      ∀ (letters : List (List Point)) (dt : ℚ) (s : V2State),
        advanceTipChecked letters dt s = some (advanceTip letters dt s) := by
  constructor
  · intro pts rc h
    unfold hotspotIdx at h ⊢
    omega
  · intro letters dt s
    simp only [advanceTipChecked, advanceTip]
    by_cases hend : letters.length ≤ (skipResetF letters (letters.length - s.curL) s).curL
    · rw [if_pos hend, if_pos hend]
    · rw [if_neg hend, if_neg hend]
      have hdraw1 : 2 ≤ lenAt letters (skipResetF letters (letters.length - s.curL) s).curL := by
        rcases skipResetF_post letters (letters.length - s.curL) s (by omega) with h' | h'
        · exact absurd h' hend
        · exact h'
      rw [tipInitChecked_eq hdraw1]
      dsimp only
      rw [advLoopFC_eq]
      obtain ⟨r, hr⟩ := Option.isSome_iff_exists.mp
        (advLoopF_isSome letters (loopFuel letters) (pointsPerSecond * dt)
          (tipInit letters (skipResetF letters (letters.length - s.curL) s))
          (nu_le_loopFuel letters _ _ _))
      rw [hr, Option.getD_some]

/-- Witness for C9: the hotspot guard at a concrete point list and reveal
count, and the checked advance at a concrete call. -/
theorem c9_no_out_of_bounds_witness :
    (0 ≤ hotspotIdx [(⟨0, 0⟩ : Point)] 0 ∧
        (hotspotIdx [(⟨0, 0⟩ : Point)] 0).toNat < ([(⟨0, 0⟩ : Point)]).length) ∧
      advanceTipChecked [[(⟨0, 0⟩ : Point), ⟨1, 1⟩]] 1 ⟨0, 0, 0, none, [], []⟩ =
        some (advanceTip [[(⟨0, 0⟩ : Point), ⟨1, 1⟩]] 1 ⟨0, 0, 0, none, [], []⟩) :=
  ⟨⟨by norm_num [hotspotIdx],
      c9_no_out_of_bounds.1 [⟨0, 0⟩] 0 (by norm_num [hotspotIdx])⟩,
    c9_no_out_of_bounds.2 [[(⟨0, 0⟩ : Point), ⟨1, 1⟩]] 1 ⟨0, 0, 0, none, [], []⟩⟩

/-- Witness for C4 at a concrete call. -/
theorem c4_curT_in_unit_interval_witness :
    (0 : ℚ) ≤ 1 ∧ (0 : ℚ) ≤ (⟨0, 0, 0, none, [], []⟩ : V2State).curT ∧
        (⟨0, 0, 0, none, [], []⟩ : V2State).curT < 1 ∧
      (0 ≤ (advanceTip [[(⟨0, 0⟩ : Point), ⟨1, 1⟩]] 1 ⟨0, 0, 0, none, [], []⟩).curT ∧
        (advanceTip [[(⟨0, 0⟩ : Point), ⟨1, 1⟩]] 1 ⟨0, 0, 0, none, [], []⟩).curT < 1) :=
  ⟨by norm_num, by norm_num, by norm_num,
    c4_curT_in_unit_interval [[(⟨0, 0⟩ : Point), ⟨1, 1⟩]] 1 ⟨0, 0, 0, none, [], []⟩
      (by norm_num) (by norm_num) (by norm_num)⟩

end EIT
